import Mathlib

/-
  Verification of the ibexicon wasm core (src/wasm/ibxwasm/src/lib.rs):
  a Wordle-style feedback classifier, its base-3 integer encoding, and a
  batch scoring loop.  Words are modelled as lists of byte values (Nat),
  the 26-entry i16 count table as a function Nat → Int (index = byte - 97),
  and the process-terminating assertions of the two public entry points as
  Option results (none = the call aborts with no output).
-/

namespace Ibx

/-- Update of the count table at one index (models counts[idx] += d). -/
def bump (cnt : Nat → Int) (j : Nat) (d : Int) : Nat → Int :=
  fun k => if k = j then cnt j + d else cnt k

/-- Loop building the letter counts of the secret (for &c in secret:
if 0 <= c-97 < 26 then counts[c-97] += 1). -/
def countsLoop : List Nat → (Nat → Int) → (Nat → Int)
  | [], cnt => cnt
  | c :: rest, cnt =>
      countsLoop rest (if 97 ≤ c ∧ c < 123 then bump cnt (c - 97) 1 else cnt)

/-- Count table over the 26 letters built from the secret. -/
def countsInit (secret : List Nat) : Nat → Int :=
  countsLoop secret (fun _ => 0)

/-- Result array after the greens pass: 2 where guess and secret agree,
0 elsewhere. -/
def greensMarks : List Nat → List Nat → List Nat
  | g :: gs, s :: ss => (if g = s then 2 else 0) :: greensMarks gs ss
  | _, _ => []

/-- Count decrements of the greens pass: at each exact match whose byte is
a letter, counts[idx] -= 1. -/
def greensLoop : List Nat → List Nat → (Nat → Int) → (Nat → Int)
  | g :: gs, s :: ss, cnt =>
      if g = s then
        greensLoop gs ss (if 97 ≤ g ∧ g < 123 then bump cnt (g - 97) (-1) else cnt)
      else greensLoop gs ss cnt
  | _, _, cnt => cnt

/-- Yellows and grays pass: positions still 0 become 1 (and consume a count)
when the guess byte is a letter with a positive remaining count, else stay 0. -/
def yellowLoop : List Nat → List Nat → (Nat → Int) → List Nat
  | g :: gs, r :: rs, cnt =>
      if r = 0 then
        if 97 ≤ g ∧ g < 123 ∧ 0 < cnt (g - 97) then
          1 :: yellowLoop gs rs (bump cnt (g - 97) (-1))
        else
          0 :: yellowLoop gs rs cnt
      else r :: yellowLoop gs rs cnt
  | _, _, _ => []

/-- The feedback classifier feedback_trits_core: counts from the secret,
greens pass, then yellows and grays pass (only the first L entries of the
64-byte result buffer are meaningful; we model that L-prefix). -/
def feedback_trits_core (guess secret : List Nat) : List Nat :=
  yellowLoop guess (greensMarks guess secret)
    (greensLoop guess secret (countsInit secret))

/-- Accumulation loop of base3_code_u16 over a u32 accumulator:
code += t * mul; mul *= 3, in wrapping 32-bit arithmetic. -/
def base3_loop : List Nat → Nat → Nat → Nat
  | [], code, _ => code
  | t :: rest, code, mul =>
      base3_loop rest ((code + t * mul) % 4294967296) ((mul * 3) % 4294967296)

/-- base3_code_u16: run the loop from code = 0, mul = 1, then narrow the
u32 accumulator to u16. -/
def base3_code_u16 (trits : List Nat) : Nat :=
  base3_loop trits 0 1 % 65536

/-- feedback_code: asserts equal lengths and length at most 10, then scores
the single pair.  none models the aborting assertion. -/
def feedback_code (guess secret : List Nat) : Option Nat :=
  if guess.length = secret.length then
    if guess.length ≤ 10 then
      some (base3_code_u16 (feedback_trits_core guess secret))
    else none
  else none

/-- Per-secret loop of pattern_row_u16: each secret must have the length of
the guess (aborting assertion otherwise), and is scored in input order. -/
def pattern_row_loop (g : List Nat) : List (List Nat) → Option (List Nat)
  | [] => some []
  | s :: rest =>
      if s.length = g.length then
        Option.map (fun out => base3_code_u16 (feedback_trits_core g s) :: out)
          (pattern_row_loop g rest)
      else none

/-- pattern_row_u16: asserts a nonempty guess of length at most 10, then
scores every secret.  none models the aborting assertion. -/
def pattern_row_u16 (guess : List Nat) (secrets : List (List Nat)) : Option (List Nat) :=
  if 0 < guess.length then
    if guess.length ≤ 10 then pattern_row_loop guess secrets
    else none
  else none

/-- Number of occurrences of byte c in a word. -/
def countOcc : List Nat → Nat → Nat
  | [], _ => 0
  | a :: rest, c => (if a = c then 1 else 0) + countOcc rest c

/-- Number of positions where the feedback list holds mark m and the guess
holds byte c (positions are aligned pairs of the two lists). -/
def markCount : List Nat → List Nat → Nat → Nat → Nat
  | o :: os, x :: xs, m, c =>
      (if o = m ∧ x = c then 1 else 0) + markCount os xs m c
  | _, _, _, _ => 0

/-- Number of exact matches whose byte is the letter with table index j. -/
def exactCnt : List Nat → List Nat → Nat → Nat
  | a :: gs, b :: ss, j =>
      (if a = b ∧ a = j + 97 then 1 else 0) + exactCnt gs ss j
  | _, _, _ => 0

/-- Plain base-3 value of a trit list, least significant trit first. -/
def base3_sum : List Nat → Nat
  | [] => 0
  | t :: rest => t + 3 * base3_sum rest

/-- Decoder for a feedback code: n times, take the code mod 3 and divide
by 3. -/
def decodeTrits : Nat → Nat → List Nat
  | 0, _ => []
  | n + 1, code => code % 3 :: decodeTrits n (code / 3)

/-- Reference count table in the words of the spec: the remaining count of
each letter is initialized from the occurrences of that letter in the
secret. -/
def specCounts (secret : List Nat) : Nat → Int :=
  fun c => (countOcc secret c : Int)

/-- Reference exact pass in the words of the spec: at every position where
guess and secret agree, decrement the remaining count of that letter. -/
def specGreensCounts : List Nat → List Nat → (Nat → Int) → (Nat → Int)
  | g :: gs, s :: ss, cnt =>
      if g = s then specGreensCounts gs ss (bump cnt g (-1))
      else specGreensCounts gs ss cnt
  | _, _, cnt => cnt

/-- Reference second pass in the words of the spec: scanning remaining
(non-Exact) positions in increasing index order, mark Present and decrement
exactly when the remaining count of the guess letter is positive, else mark
Absent. -/
def specPresentPass : List Nat → List Nat → (Nat → Int) → List Nat
  | g :: gs, r :: rs, cnt =>
      if r = 2 then 2 :: specPresentPass gs rs cnt
      else if 0 < cnt g then 1 :: specPresentPass gs rs (bump cnt g (-1))
      else 0 :: specPresentPass gs rs cnt
  | _, _, _ => []

/-- Reference two-pass classifier assembled from the above, following the
words of the spec rather than the source. -/
def classify_spec (guess secret : List Nat) : List Nat :=
  specPresentPass guess (greensMarks guess secret)
    (specGreensCounts guess secret (specCounts secret))

/-- Correspondence between the source count table (indexed by byte - 97)
and the reference count table (indexed by byte) on the letters a-z. -/
def CntRel (cntI cntS : Nat → Int) : Prop :=
  ∀ c, 97 ≤ c → c < 123 → cntI (c - 97) = cntS c

example : feedback_trits_core [97, 97, 98, 98] [97, 98, 97, 98] = [2, 1, 1, 2] := by
  decide

example : feedback_trits_core [99, 105, 118, 105, 99] [99, 105, 103, 97, 114] =
    [2, 2, 0, 0, 0] := by decide

example : feedback_trits_core [33] [33] = [2] := by decide

example : base3_code_u16 [2, 1, 1, 2] = 2 + 3 + 9 + 54 := by decide

/-! Lemmas on the base-3 encoding loop. -/

lemma base3_loop_eq (trits : List Nat) : ∀ (code mul : Nat),
    (∀ t ∈ trits, t ≤ 2) →
    code + base3_sum trits * mul < 4294967296 →
    mul * 3 ^ trits.length < 4294967296 →
    base3_loop trits code mul = code + base3_sum trits * mul := by
  induction trits with
  | nil =>
    intro code mul _ _ _
    simp [base3_loop, base3_sum]
  | cons t rest ih =>
    intro code mul hv hc hm
    have ht : t ≤ 2 := hv t (by simp)
    have hrest : ∀ x ∈ rest, x ≤ 2 := fun x hx => hv x (by simp [hx])
    have hsum : base3_sum (t :: rest) = t + 3 * base3_sum rest := rfl
    rw [hsum] at hc
    have hpow1 : (1:Nat) ≤ 3 ^ rest.length := Nat.one_le_pow _ _ (by norm_num)
    have hme : mul * 3 ^ (t :: rest).length = mul * 3 * 3 ^ rest.length := by
      rw [List.length_cons, pow_succ]; ring
    rw [hme] at hm
    have hm3 : mul * 3 < 4294967296 := by nlinarith
    have hc1 : code + t * mul < 4294967296 := by nlinarith
    have hstep : base3_loop (t :: rest) code mul =
        base3_loop rest ((code + t * mul) % 4294967296) ((mul * 3) % 4294967296) := rfl
    rw [hstep, Nat.mod_eq_of_lt hc1, Nat.mod_eq_of_lt hm3]
    have hc2 : (code + t * mul) + base3_sum rest * (mul * 3) < 4294967296 := by nlinarith
    have hrw := ih (code + t * mul) (mul * 3) hrest hc2 hm
    rw [hrw, hsum]; ring

lemma base3_sum_succ_le (trits : List Nat) (hv : ∀ t ∈ trits, t ≤ 2) :
    base3_sum trits + 1 ≤ 3 ^ trits.length := by
  induction trits with
  | nil => simp [base3_sum]
  | cons t rest ih =>
    have ht : t ≤ 2 := hv t (by simp)
    have hrest := ih (fun x hx => hv x (by simp [hx]))
    have hsum : base3_sum (t :: rest) = t + 3 * base3_sum rest := rfl
    have hlen : (3:Nat) ^ (t :: rest).length = 3 * 3 ^ rest.length := by
      rw [List.length_cons, pow_succ]; ring
    omega

lemma base3_sum_eq_finsum (trits : List Nat) :
    base3_sum trits = ∑ i in Finset.range trits.length, trits.getD i 0 * 3 ^ i := by
  induction trits with
  | nil => simp [base3_sum]
  | cons t rest ih =>
    rw [List.length_cons, Finset.sum_range_succ']
    have h1 : ∑ i in Finset.range rest.length, (t :: rest).getD (i + 1) 0 * 3 ^ (i + 1)
        = (∑ i in Finset.range rest.length, rest.getD i 0 * 3 ^ i) * 3 := by
      rw [Finset.sum_mul]
      refine Finset.sum_congr rfl (fun i _ => ?_)
      rw [List.getD_cons_succ, pow_succ]; ring
    rw [h1, List.getD_cons_zero, pow_zero, mul_one, ← ih]
    have hsum : base3_sum (t :: rest) = t + 3 * base3_sum rest := rfl
    rw [hsum]; ring

/-- Shared: for trit lists of length at most 10 with values at most 2, the
wrapping loop and the final u16 narrowing are both lossless. -/
lemma base3_code_facts (trits : List Nat) (hlen : trits.length ≤ 10)
    (hv : ∀ t ∈ trits, t ≤ 2) :
    base3_loop trits 0 1 = base3_sum trits ∧ base3_sum trits ≤ 59048 ∧
    base3_code_u16 trits = base3_sum trits := by
  have hb := base3_sum_succ_le trits hv
  have hp : (3:Nat) ^ trits.length ≤ 3 ^ 10 := Nat.pow_le_pow_right (by norm_num) hlen
  have h310 : (3:Nat) ^ 10 = 59049 := by norm_num
  have hle : base3_sum trits ≤ 59048 := by omega
  have hloop : base3_loop trits 0 1 = base3_sum trits := by
    have h := base3_loop_eq trits 0 1 hv (by omega) (by omega)
    simpa using h
  refine ⟨hloop, hle, ?_⟩
  rw [base3_code_u16, hloop, Nat.mod_eq_of_lt (by omega)]

lemma decode_base3_sum (trits : List Nat) (hv : ∀ t ∈ trits, t ≤ 2) :
    decodeTrits trits.length (base3_sum trits) = trits := by
  induction trits with
  | nil => rfl
  | cons t rest ih =>
    have ht : t ≤ 2 := hv t (by simp)
    have hrest : ∀ x ∈ rest, x ≤ 2 := fun x hx => hv x (by simp [hx])
    have h1 : (t + 3 * base3_sum rest) % 3 = t := by omega
    have h2 : (t + 3 * base3_sum rest) / 3 = base3_sum rest := by omega
    show decodeTrits (rest.length + 1) (base3_sum (t :: rest)) = t :: rest
    have hsum : base3_sum (t :: rest) = t + 3 * base3_sum rest := rfl
    rw [hsum, decodeTrits, h1, h2, ih hrest]

/-! Claims C5, C10, C6 on the encoder, C7 and C9 on the entry points. -/

/-- C5: for every trit sequence of length at most 10 with each value in
0..2, base3_code_u16 returns the base-3 value with position 0 as the least
significant digit. -/
theorem C5_encode_is_base3 (trits : List Nat) (hlen : trits.length ≤ 10)
    (hv : ∀ t ∈ trits, t ≤ 2) :
    base3_code_u16 trits = ∑ i in Finset.range trits.length, trits.getD i 0 * 3 ^ i := by
  rw [(base3_code_facts trits hlen hv).2.2, base3_sum_eq_finsum]

theorem C5_witness :
    base3_code_u16 [2, 1, 1, 2] =
      ∑ i in Finset.range ([2, 1, 1, 2] : List Nat).length,
        ([2, 1, 1, 2] : List Nat).getD i 0 * 3 ^ i :=
  C5_encode_is_base3 [2, 1, 1, 2] (by decide) (by decide)

/-- C10: for every trit sequence of length at most 10 with each value in
0..2, the u32 accumulator of base3_code_u16 never wraps (the loop computes
the exact base-3 value, bounded by 3 to the 10th minus 1 = 59048), so the
final narrowing to u16 is lossless. -/
theorem C10_no_overflow (trits : List Nat) (hlen : trits.length ≤ 10)
    (hv : ∀ t ∈ trits, t ≤ 2) :
    base3_loop trits 0 1 = base3_sum trits ∧ base3_sum trits ≤ 59048 ∧
    base3_code_u16 trits = base3_loop trits 0 1 := by
  obtain ⟨h1, h2, h3⟩ := base3_code_facts trits hlen hv
  exact ⟨h1, h2, by rw [h3, h1]⟩

theorem C10_witness :
    base3_loop [2, 2, 2, 2, 2, 2, 2, 2, 2, 2] 0 1 = base3_sum [2, 2, 2, 2, 2, 2, 2, 2, 2, 2] ∧
    base3_sum [2, 2, 2, 2, 2, 2, 2, 2, 2, 2] ≤ 59048 ∧
    base3_code_u16 [2, 2, 2, 2, 2, 2, 2, 2, 2, 2] = base3_loop [2, 2, 2, 2, 2, 2, 2, 2, 2, 2] 0 1 :=
  C10_no_overflow [2, 2, 2, 2, 2, 2, 2, 2, 2, 2] (by decide) (by decide)

/-- C6: decoding the code of a trit sequence of length at most 10 (values
in 0..2) by repeated mod 3 and division by 3 reproduces the sequence. -/
theorem C6_round_trip (trits : List Nat) (hlen : trits.length ≤ 10)
    (hv : ∀ t ∈ trits, t ≤ 2) :
    decodeTrits trits.length (base3_code_u16 trits) = trits := by
  rw [(base3_code_facts trits hlen hv).2.2]
  exact decode_base3_sum trits hv

theorem C6_witness :
    decodeTrits ([2, 1, 1, 2] : List Nat).length (base3_code_u16 [2, 1, 1, 2]) = [2, 1, 1, 2] :=
  C6_round_trip [2, 1, 1, 2] (by decide) (by decide)

/-- C7: feedback_code aborts exactly when the lengths differ or exceed 10,
and on every other input returns the single-pair code. -/
theorem C7_feedback_code_totality (guess secret : List Nat) :
    (feedback_code guess secret = none ↔
      (guess.length ≠ secret.length ∨ 10 < guess.length)) ∧
    (guess.length = secret.length → guess.length ≤ 10 →
      feedback_code guess secret =
        some (base3_code_u16 (feedback_trits_core guess secret))) := by
  by_cases h1 : guess.length = secret.length
  · by_cases h2 : guess.length ≤ 10
    · simp [feedback_code, h1, h2]
    · simp [feedback_code, h1, h2]
  · simp [feedback_code, h1]

theorem C7_witness :
    (feedback_code [97, 98] [98, 97] = none ↔
      (([97, 98] : List Nat).length ≠ ([98, 97] : List Nat).length ∨
        10 < ([97, 98] : List Nat).length)) ∧
    (([97, 98] : List Nat).length = ([98, 97] : List Nat).length →
      ([97, 98] : List Nat).length ≤ 10 →
      feedback_code [97, 98] [98, 97] =
        some (base3_code_u16 (feedback_trits_core [97, 98] [98, 97]))) :=
  C7_feedback_code_totality [97, 98] [98, 97]

/-- C9: the two entry points treat the empty word asymmetrically:
feedback_code on two empty words returns code 0, while pattern_row_u16
rejects an empty guess before scoring any secret. -/
theorem C9_empty_asymmetry :
    feedback_code [] [] = some 0 ∧
    ∀ secrets : List (List Nat), pattern_row_u16 [] secrets = none := by
  exact ⟨rfl, fun secrets => rfl⟩

theorem C9_witness :
    feedback_code [] [] = some 0 ∧ pattern_row_u16 [] [[97]] = none :=
  ⟨C9_empty_asymmetry.1, C9_empty_asymmetry.2 [[97]]⟩

/-! Lemmas on the batch loop, then claims C8 and C4. -/

lemma pattern_row_loop_eq_none (g : List Nat) (secrets : List (List Nat)) :
    pattern_row_loop g secrets = none ↔ ∃ s ∈ secrets, s.length ≠ g.length := by
  induction secrets with
  | nil => simp [pattern_row_loop]
  | cons s rest ih =>
    by_cases h : s.length = g.length
    · rw [pattern_row_loop, if_pos h]
      simp only [Option.map_eq_none', ih, List.mem_cons]
      constructor
      · rintro ⟨x, hx, hne⟩; exact ⟨x, Or.inr hx, hne⟩
      · rintro ⟨x, hx | hx, hne⟩
        · exact absurd (hx ▸ hne) (by simp [h])
        · exact ⟨x, hx, hne⟩
    · rw [pattern_row_loop, if_neg h]
      exact ⟨fun _ => ⟨s, by simp, h⟩, fun _ => rfl⟩

lemma pattern_row_loop_eq_some (g : List Nat) (secrets : List (List Nat))
    (hs : ∀ s ∈ secrets, s.length = g.length) :
    pattern_row_loop g secrets =
      some (secrets.map (fun s => base3_code_u16 (feedback_trits_core g s))) := by
  induction secrets with
  | nil => rfl
  | cons s rest ih =>
    rw [pattern_row_loop, if_pos (hs s (by simp)), ih (fun x hx => hs x (by simp [hx]))]
    rfl

lemma getD_map_code (g : List Nat) (l : List (List Nat)) : ∀ (i : Nat), i < l.length →
    (l.map (fun s => base3_code_u16 (feedback_trits_core g s))).getD i 0 =
      base3_code_u16 (feedback_trits_core g (l.getD i [])) := by
  induction l with
  | nil => intro i hi; simp at hi
  | cons s rest ih =>
    intro i hi
    cases i with
    | zero => rfl
    | succ n =>
      simp only [List.map_cons, List.getD_cons_succ]
      exact ih n (by simpa using hi)

lemma getD_mem_of_lt (l : List (List Nat)) : ∀ (i : Nat), i < l.length → l.getD i [] ∈ l := by
  induction l with
  | nil => intro i hi; simp at hi
  | cons s rest ih =>
    intro i hi
    cases i with
    | zero => simp
    | succ n =>
      rw [List.getD_cons_succ]
      exact List.mem_cons_of_mem s (ih n (by simpa using hi))

/-- C8: pattern_row_u16 aborts with no output exactly when the guess length
is outside 1..10 or some secret has a different length; a mismatched secret
is never skipped. -/
theorem C8_batch_failure (guess : List Nat) (secrets : List (List Nat)) :
    pattern_row_u16 guess secrets = none ↔
      (guess.length = 0 ∨ 10 < guess.length ∨ ∃ s ∈ secrets, s.length ≠ guess.length) := by
  unfold pattern_row_u16
  by_cases h1 : 0 < guess.length
  · by_cases h2 : guess.length ≤ 10
    · rw [if_pos h1, if_pos h2, pattern_row_loop_eq_none]
      have h1' : ¬ guess.length = 0 := by omega
      have h2' : ¬ 10 < guess.length := by omega
      simp [h1', h2']
    · rw [if_pos h1, if_neg h2]
      simp only [true_iff]
      right; left; omega
  · rw [if_neg h1]
    simp only [true_iff]
    left; omega

theorem C8_witness :
    pattern_row_u16 [97] [[97], [98, 99]] = none ↔
      (([97] : List Nat).length = 0 ∨ 10 < ([97] : List Nat).length ∨
        ∃ s ∈ [[97], [98, 99]], List.length s ≠ ([97] : List Nat).length) :=
  C8_batch_failure [97] [[97], [98, 99]]

/-- C4: when the guess length is in 1..10 and every secret has the same
length, the batch returns one code per secret, index-aligned, each equal
to the single-pair path feedback_code on that secret. -/
theorem C4_batch_single_equiv (guess : List Nat) (secrets : List (List Nat))
    (h1 : 1 ≤ guess.length) (h2 : guess.length ≤ 10)
    (hs : ∀ s ∈ secrets, s.length = guess.length) :
    ∃ out, pattern_row_u16 guess secrets = some out ∧
      out.length = secrets.length ∧
      ∀ i < secrets.length,
        out.getD i 0 = base3_code_u16 (feedback_trits_core guess (secrets.getD i [])) ∧
        feedback_code guess (secrets.getD i []) = some (out.getD i 0) := by
  refine ⟨secrets.map (fun s => base3_code_u16 (feedback_trits_core guess s)), ?_, ?_, ?_⟩
  · rw [pattern_row_u16, if_pos (by omega), if_pos h2]
    exact pattern_row_loop_eq_some guess secrets hs
  · exact List.length_map _ _
  · intro i hi
    have hg := getD_map_code guess secrets i hi
    have hmem := getD_mem_of_lt secrets i hi
    refine ⟨hg, ?_⟩
    rw [feedback_code, if_pos (hs _ hmem).symm, if_pos h2, hg]

/-! Lemmas on the count table and the two passes, for claim C3. -/

lemma countsLoop_eq (s : List Nat) : ∀ (cnt : Nat → Int) (j : Nat),
    countsLoop s cnt j = cnt j + if j < 26 then (countOcc s (j + 97) : Int) else 0 := by
  induction s with
  | nil =>
    intro cnt j
    simp [countsLoop, countOcc]
  | cons c rest ih =>
    intro cnt j
    rw [countsLoop, ih]
    by_cases hc : 97 ≤ c ∧ c < 123
    · rw [if_pos hc]
      simp only [bump, countOcc]
      by_cases he : j = c - 97
      · have hcj : c = j + 97 := by omega
        have hj : j < 26 := by omega
        rw [if_pos he, ← he, if_pos hj, if_pos hj, if_pos hcj]
        push_cast
        ring
      · have hne : ¬ c = j + 97 := by omega
        rw [if_neg he, if_neg hne]
        by_cases hj : j < 26
        · rw [if_pos hj, if_pos hj]
          push_cast
          ring
        · rw [if_neg hj, if_neg hj]
    · rw [if_neg hc]
      simp only [countOcc]
      by_cases hj : j < 26
      · have hne : ¬ c = j + 97 := by omega
        rw [if_neg hne, if_pos hj, if_pos hj]
        push_cast
        ring
      · rw [if_neg hj, if_neg hj]

lemma greensLoop_eq (g : List Nat) : ∀ (s : List Nat) (cnt : Nat → Int) (j : Nat), j < 26 →
    greensLoop g s cnt j = cnt j - (exactCnt g s j : Int) := by
  induction g with
  | nil =>
    intro s cnt j _
    cases s <;> simp [greensLoop, exactCnt]
  | cons a gs ih =>
    intro s cnt j hj
    cases s with
    | nil => simp [greensLoop, exactCnt]
    | cons b ss =>
      rw [greensLoop]
      by_cases hab : a = b
      · rw [if_pos hab]
        by_cases hc : 97 ≤ a ∧ a < 123
        · rw [if_pos hc, ih ss _ j hj]
          simp only [bump, exactCnt]
          by_cases he : j = a - 97
          · have haj : a = j + 97 := by omega
            rw [if_pos he, ← he, if_pos (⟨hab, haj⟩ : a = b ∧ a = j + 97)]
            push_cast
            ring
          · have hne : ¬ (a = b ∧ a = j + 97) := fun h => he (by omega)
            rw [if_neg he, if_neg hne]
            push_cast
            ring
        · rw [if_neg hc, ih ss _ j hj]
          simp only [exactCnt]
          have hne : ¬ (a = b ∧ a = j + 97) := fun h => hc (by omega)
          rw [if_neg hne]
          push_cast
          ring
      · rw [if_neg hab, ih ss _ j hj]
        simp only [exactCnt]
        have hne : ¬ (a = b ∧ a = j + 97) := fun h => hab h.1
        rw [if_neg hne]
        push_cast
        ring

lemma exactCnt_le (g : List Nat) : ∀ (s : List Nat) (j : Nat),
    exactCnt g s j ≤ countOcc s (j + 97) := by
  induction g with
  | nil =>
    intro s j
    cases s <;> simp [exactCnt, countOcc]
  | cons a gs ih =>
    intro s j
    cases s with
    | nil => simp [exactCnt]
    | cons b ss =>
      simp only [exactCnt, countOcc]
      have hih := ih ss j
      by_cases h : a = b ∧ a = j + 97
      · have hb : b = j + 97 := by omega
        rw [if_pos h, if_pos hb]
        omega
      · rw [if_neg h]
        by_cases hb : b = j + 97
        · rw [if_pos hb]; omega
        · rw [if_neg hb]; omega

lemma greensMarks_mem (g : List Nat) : ∀ (s : List Nat) (r : Nat),
    r ∈ greensMarks g s → r = 0 ∨ r = 2 := by
  induction g with
  | nil =>
    intro s r hr
    cases s <;> simp [greensMarks] at hr
  | cons a gs ih =>
    intro s r hr
    cases s with
    | nil => simp [greensMarks] at hr
    | cons b ss =>
      rw [greensMarks] at hr
      rcases List.mem_cons.mp hr with h | h
      · by_cases hab : a = b
        · rw [if_pos hab] at h; right; exact h
        · rw [if_neg hab] at h; left; exact h
      · exact ih ss r h

lemma markCount2_yellow (g : List Nat) : ∀ (res : List Nat) (cnt : Nat → Int) (c : Nat),
    (∀ r ∈ res, r = 0 ∨ r = 2) →
    markCount (yellowLoop g res cnt) g 2 c = markCount res g 2 c := by
  induction g with
  | nil =>
    intro res cnt c _
    cases res <;> simp [yellowLoop, markCount]
  | cons a gs ih =>
    intro res cnt c hres
    cases res with
    | nil => simp [yellowLoop, markCount]
    | cons r rs =>
      have hrs : ∀ x ∈ rs, x = 0 ∨ x = 2 := fun x hx => hres x (by simp [hx])
      rw [yellowLoop]
      by_cases h0 : r = 0
      · rw [if_pos h0]
        by_cases hg : 97 ≤ a ∧ a < 123 ∧ 0 < cnt (a - 97)
        · rw [if_pos hg]
          simp only [markCount]
          rw [ih rs _ c hrs]
          have hh1 : ¬ ((1:Nat) = 2 ∧ a = c) := fun h => by obtain ⟨h', _⟩ := h; omega
          have hh2 : ¬ (r = 2 ∧ a = c) := fun h => by obtain ⟨h', _⟩ := h; omega
          rw [if_neg hh1, if_neg hh2]
        · rw [if_neg hg]
          simp only [markCount]
          rw [ih rs _ c hrs]
          have hh1 : ¬ ((0:Nat) = 2 ∧ a = c) := fun h => by obtain ⟨h', _⟩ := h; omega
          have hh2 : ¬ (r = 2 ∧ a = c) := fun h => by obtain ⟨h', _⟩ := h; omega
          rw [if_neg hh1, if_neg hh2]
      · rw [if_neg h0]
        simp only [markCount]
        rw [ih rs _ c hrs]

lemma markCount2_greens (g : List Nat) : ∀ (s : List Nat) (c : Nat), 97 ≤ c → c < 123 →
    markCount (greensMarks g s) g 2 c = exactCnt g s (c - 97) := by
  induction g with
  | nil =>
    intro s c _ _
    cases s <;> simp [greensMarks, markCount, exactCnt]
  | cons a gs ih =>
    intro s c h1 h2
    cases s with
    | nil => simp [greensMarks, markCount, exactCnt]
    | cons b ss =>
      simp only [greensMarks, markCount, exactCnt]
      rw [ih ss c h1 h2]
      congr 1
      have hc : c - 97 + 97 = c := by omega
      rw [hc]
      by_cases hab : a = b
      · simp [hab]
      · simp [hab]

lemma markCount1_yellow_le (g : List Nat) : ∀ (res : List Nat) (cnt : Nat → Int) (j N : Nat),
    j < 26 → (∀ r ∈ res, r = 0 ∨ r = 2) → cnt j ≤ (N : Int) →
    markCount (yellowLoop g res cnt) g 1 (j + 97) ≤ N := by
  induction g with
  | nil =>
    intro res cnt j N _ _ _
    cases res <;> simp [yellowLoop, markCount]
  | cons a gs ih =>
    intro res cnt j N hj hres hcnt
    cases res with
    | nil => simp [yellowLoop, markCount]
    | cons r rs =>
      have hrs : ∀ x ∈ rs, x = 0 ∨ x = 2 := fun x hx => hres x (by simp [hx])
      rw [yellowLoop]
      by_cases h0 : r = 0
      · rw [if_pos h0]
        by_cases hg : 97 ≤ a ∧ a < 123 ∧ 0 < cnt (a - 97)
        · rw [if_pos hg]
          simp only [markCount]
          by_cases hac : a = j + 97
          · have haj : a - 97 = j := by omega
            have hpos : 0 < cnt j := by rw [← haj]; exact hg.2.2
            have hN1 : 1 ≤ N := by omega
            have hbj : bump cnt (a - 97) (-1) j = cnt j + (-1) := by
              simp [bump, haj]
            have hbump : bump cnt (a - 97) (-1) j ≤ ((N - 1 : Nat) : Int) := by
              rw [hbj]; omega
            have hih := ih rs (bump cnt (a - 97) (-1)) j (N - 1) hj hrs hbump
            simp only [true_and]
            rw [if_pos hac]
            omega
          · simp only [true_and]
            rw [if_neg hac]
            have hbump : bump cnt (a - 97) (-1) j ≤ (N : Int) := by
              have hne : ¬ j = a - 97 := by omega
              simp only [bump]
              rw [if_neg hne]
              exact hcnt
            have hih := ih rs _ j N hj hrs hbump
            omega
        · rw [if_neg hg]
          simp only [markCount]
          have hh : ¬ ((0:Nat) = 1 ∧ a = j + 97) := fun h => by obtain ⟨h', _⟩ := h; omega
          rw [if_neg hh]
          have hih := ih rs cnt j N hj hrs hcnt
          omega
      · rw [if_neg h0]
        simp only [markCount]
        have hr2 : r = 2 := by
          rcases hres r (by simp) with h | h
          · exact absurd h h0
          · exact h
        have hh : ¬ (r = 1 ∧ a = j + 97) := fun h => by obtain ⟨h', _⟩ := h; omega
        rw [if_neg hh]
        have hih := ih rs cnt j N hj hrs hcnt
        omega

/-- C3: for every pair of equal-length words and every letter a-z, the
number of Exact marks plus Present marks the classifier gives that letter
never exceeds its occurrence count in the secret. -/
theorem C3_count_conservation (guess secret : List Nat)
    (hlen : guess.length = secret.length) (c : Nat) (h1 : 97 ≤ c) (h2 : c < 123) :
    markCount (feedback_trits_core guess secret) guess 2 c +
      markCount (feedback_trits_core guess secret) guess 1 c ≤ countOcc secret c := by
  have hj : c - 97 < 26 := by omega
  have hc97 : c - 97 + 97 = c := by omega
  have hres : ∀ r ∈ greensMarks guess secret, r = 0 ∨ r = 2 :=
    fun r hr => greensMarks_mem guess secret r hr
  have hE : markCount (feedback_trits_core guess secret) guess 2 c =
      exactCnt guess secret (c - 97) := by
    rw [feedback_trits_core, markCount2_yellow guess _ _ c hres,
      markCount2_greens guess secret c h1 h2]
  have hEle : exactCnt guess secret (c - 97) ≤ countOcc secret c := by
    have h := exactCnt_le guess secret (c - 97)
    rwa [hc97] at h
  have hcnt : greensLoop guess secret (countsInit secret) (c - 97) =
      (countOcc secret c : Int) - (exactCnt guess secret (c - 97) : Int) := by
    rw [greensLoop_eq guess secret _ (c - 97) hj, countsInit, countsLoop_eq,
      if_pos hj, hc97]
    ring
  have hb : greensLoop guess secret (countsInit secret) (c - 97) ≤
      ((countOcc secret c - exactCnt guess secret (c - 97) : Nat) : Int) := by
    rw [hcnt]
    omega
  have hP := markCount1_yellow_le guess (greensMarks guess secret)
    (greensLoop guess secret (countsInit secret)) (c - 97)
    (countOcc secret c - exactCnt guess secret (c - 97)) hj hres hb
  rw [hc97] at hP
  rw [feedback_trits_core] at hE ⊢
  omega

theorem C3_witness :
    markCount (feedback_trits_core [97, 97, 98, 98] [97, 98, 97, 98]) [97, 97, 98, 98] 2 97 +
      markCount (feedback_trits_core [97, 97, 98, 98] [97, 98, 97, 98]) [97, 97, 98, 98] 1 97 ≤
      countOcc [97, 98, 97, 98] 97 :=
  C3_count_conservation [97, 97, 98, 98] [97, 98, 97, 98] (by decide) 97 (by decide) (by decide)

theorem C4_witness :
    ∃ out, pattern_row_u16 [97, 98] [[97, 98], [98, 97]] = some out ∧
      out.length = ([[97, 98], [98, 97]] : List (List Nat)).length ∧
      ∀ i < ([[97, 98], [98, 97]] : List (List Nat)).length,
        out.getD i 0 =
          base3_code_u16 (feedback_trits_core [97, 98] (([[97, 98], [98, 97]] : List (List Nat)).getD i [])) ∧
        feedback_code [97, 98] (([[97, 98], [98, 97]] : List (List Nat)).getD i []) =
          some (out.getD i 0) :=
  C4_batch_single_equiv [97, 98] [[97, 98], [98, 97]] (by decide) (by decide) (by decide)

/-! Lemmas on positions and non-letter bytes, for claim C2. -/

lemma greensMarks_length (g : List Nat) : ∀ s : List Nat,
    (greensMarks g s).length = min g.length s.length := by
  induction g with
  | nil => intro s; cases s <;> simp [greensMarks]
  | cons a gs ih =>
    intro s
    cases s with
    | nil => simp [greensMarks]
    | cons b ss =>
      rw [greensMarks]
      simp only [List.length_cons, ih ss]
      omega

lemma getD_mem_nat (l : List Nat) : ∀ i, i < l.length → l.getD i 0 ∈ l := by
  induction l with
  | nil => intro i hi; simp at hi
  | cons a rest ih =>
    intro i hi
    cases i with
    | zero => simp
    | succ n =>
      rw [List.getD_cons_succ]
      exact List.mem_cons_of_mem a (ih n (by simpa using hi))

lemma yellowLoop_getD_one (g : List Nat) : ∀ (res : List Nat) (cnt : Nat → Int) (i : Nat),
    (yellowLoop g res cnt).getD i 0 = 1 →
    (97 ≤ g.getD i 0 ∧ g.getD i 0 < 123) ∨ res.getD i 0 = 1 := by
  induction g with
  | nil =>
    intro res cnt i h
    cases res <;> simp [yellowLoop] at h
  | cons a gs ih =>
    intro res cnt i h
    cases res with
    | nil => simp [yellowLoop] at h
    | cons r rs =>
      rw [yellowLoop] at h
      cases i with
      | zero =>
        by_cases h0 : r = 0
        · rw [if_pos h0] at h
          by_cases hg : 97 ≤ a ∧ a < 123 ∧ 0 < cnt (a - 97)
          · left
            simpa using ⟨hg.1, hg.2.1⟩
          · rw [if_neg hg] at h
            simp at h
        · rw [if_neg h0] at h
          right
          simpa using h
      | succ n =>
        by_cases h0 : r = 0
        · rw [if_pos h0] at h
          by_cases hg : 97 ≤ a ∧ a < 123 ∧ 0 < cnt (a - 97)
          · rw [if_pos hg, List.getD_cons_succ] at h
            simpa [List.getD_cons_succ] using ih rs _ n h
          · rw [if_neg hg, List.getD_cons_succ] at h
            simpa [List.getD_cons_succ] using ih rs _ n h
        · rw [if_neg h0, List.getD_cons_succ] at h
          simpa [List.getD_cons_succ] using ih rs _ n h

lemma yellowLoop_getD_two (g : List Nat) : ∀ (res : List Nat) (cnt : Nat → Int) (i : Nat),
    i < g.length → i < res.length →
    ((yellowLoop g res cnt).getD i 0 = 2 ↔ res.getD i 0 = 2) := by
  induction g with
  | nil => intro res cnt i hi _; simp at hi
  | cons a gs ih =>
    intro res cnt i hi hri
    cases res with
    | nil => simp at hri
    | cons r rs =>
      rw [yellowLoop]
      cases i with
      | zero =>
        by_cases h0 : r = 0
        · rw [if_pos h0]
          by_cases hg : 97 ≤ a ∧ a < 123 ∧ 0 < cnt (a - 97)
          · rw [if_pos hg]
            simp [h0]
          · rw [if_neg hg]
            simp [h0]
        · rw [if_neg h0]
          simp
      | succ n =>
        have hn : n < gs.length := by simpa using hi
        have hrn : n < rs.length := by simpa using hri
        by_cases h0 : r = 0
        · rw [if_pos h0]
          by_cases hg : 97 ≤ a ∧ a < 123 ∧ 0 < cnt (a - 97)
          · rw [if_pos hg]
            simpa [List.getD_cons_succ] using ih rs _ n hn hrn
          · rw [if_neg hg]
            simpa [List.getD_cons_succ] using ih rs _ n hn hrn
        · rw [if_neg h0]
          simpa [List.getD_cons_succ] using ih rs _ n hn hrn

lemma greensMarks_getD (g : List Nat) : ∀ (s : List Nat) (i : Nat),
    i < g.length → i < s.length →
    ((greensMarks g s).getD i 0 = 2 ↔ g.getD i 0 = s.getD i 0) := by
  induction g with
  | nil => intro s i hi _; simp at hi
  | cons a gs ih =>
    intro s i hi hsi
    cases s with
    | nil => simp at hsi
    | cons b ss =>
      rw [greensMarks]
      cases i with
      | zero =>
        by_cases hab : a = b
        · simp [hab]
        · simp [hab]
      | succ n =>
        have hn : n < gs.length := by simpa using hi
        have hsn : n < ss.length := by simpa using hsi
        simpa [List.getD_cons_succ] using ih ss n hn hsn

lemma countOcc_filter (s : List Nat) (c : Nat) (h1 : 97 ≤ c) (h2 : c < 123) :
    countOcc (s.filter (fun x => decide (97 ≤ x ∧ x < 123))) c = countOcc s c := by
  induction s with
  | nil => rfl
  | cons a rest ih =>
    rw [List.filter_cons]
    by_cases ha : 97 ≤ a ∧ a < 123
    · rw [if_pos (by simpa using ha)]
      simp only [countOcc, ih]
    · rw [if_neg (by simpa using ha)]
      have hne : ¬ a = c := by omega
      simp only [countOcc, if_neg hne, ih]
      omega

/-- C2 as stated is false: byte 33 lies outside a-z, yet the classifier
marks a position holding it in both words as Exact (2). -/
theorem C2_counterexample :
    feedback_trits_core [33] [33] = [2] ∧ ¬ (97 ≤ 33 ∧ 33 < 123) := by
  decide

/-- C2 amended: for equal-length words, a guess byte outside a-z is never
marked Present, a position is marked Exact exactly when guess and secret
agree there (even for bytes outside a-z), bytes outside a-z never
contribute to the availability counts, and the exact pass only decrements
the count of a letter a-z at exact matches of that letter. -/
theorem C2_nonletter_behaviour (guess secret : List Nat)
    (hlen : guess.length = secret.length) :
    (∀ i, i < guess.length → ¬ (97 ≤ guess.getD i 0 ∧ guess.getD i 0 < 123) →
      (feedback_trits_core guess secret).getD i 0 ≠ 1) ∧
    (∀ i, i < guess.length →
      ((feedback_trits_core guess secret).getD i 0 = 2 ↔
        guess.getD i 0 = secret.getD i 0)) ∧
    (∀ j, countsInit secret j =
      countsInit (secret.filter (fun c => decide (97 ≤ c ∧ c < 123))) j) ∧
    (∀ (cnt : Nat → Int) (j : Nat), j < 26 →
      greensLoop guess secret cnt j = cnt j - (exactCnt guess secret j : Int)) := by
  have hreslen : (greensMarks guess secret).length = guess.length := by
    rw [greensMarks_length, hlen, Nat.min_self]
  refine ⟨?_, ?_, ?_, ?_⟩
  · intro i hi hout h1
    rcases yellowLoop_getD_one guess (greensMarks guess secret) _ i h1 with h | h
    · exact hout h
    · have hmem := getD_mem_nat (greensMarks guess secret) i (by omega)
      rw [h] at hmem
      rcases greensMarks_mem guess secret 1 hmem with h' | h' <;> omega
  · intro i hi
    rw [feedback_trits_core,
      yellowLoop_getD_two guess (greensMarks guess secret) _ i hi (by omega),
      greensMarks_getD guess secret i hi (by omega)]
  · intro j
    rw [countsInit, countsInit, countsLoop_eq, countsLoop_eq]
    by_cases hj : j < 26
    · rw [if_pos hj, if_pos hj, countOcc_filter secret (j + 97) (by omega) (by omega)]
    · rw [if_neg hj, if_neg hj]
  · intro cnt j hj
    exact greensLoop_eq guess secret cnt j hj

theorem C2_witness :
    (∀ i, i < ([33] : List Nat).length →
      ¬ (97 ≤ ([33] : List Nat).getD i 0 ∧ ([33] : List Nat).getD i 0 < 123) →
      (feedback_trits_core [33] [97]).getD i 0 ≠ 1) ∧
    (∀ i, i < ([33] : List Nat).length →
      ((feedback_trits_core [33] [97]).getD i 0 = 2 ↔
        ([33] : List Nat).getD i 0 = ([97] : List Nat).getD i 0)) ∧
    (∀ j, countsInit [97] j =
      countsInit (([97] : List Nat).filter (fun c => decide (97 ≤ c ∧ c < 123))) j) ∧
    (∀ (cnt : Nat → Int) (j : Nat), j < 26 →
      greensLoop [33] [97] cnt j = cnt j - (exactCnt [33] [97] j : Int)) :=
  C2_nonletter_behaviour [33] [97] (by decide)

/-! Correspondence between the source classifier and the reference
two-pass definition, for claim C1. -/

lemma cntRel_bump {cntI cntS : Nat → Int} (h : CntRel cntI cntS) (a : Nat)
    (ha1 : 97 ≤ a) (ha2 : a < 123) (d : Int) :
    CntRel (bump cntI (a - 97) d) (bump cntS a d) := by
  intro c h1 h2
  simp only [bump]
  by_cases he : c = a
  · rw [if_pos (by omega : c - 97 = a - 97), if_pos he, h a ha1 ha2]
  · rw [if_neg (by omega : ¬ c - 97 = a - 97), if_neg he]
    exact h c h1 h2

lemma cntRel_init (s : List Nat) : CntRel (countsInit s) (specCounts s) := by
  intro c h1 h2
  have hj : c - 97 < 26 := by omega
  have hc : c - 97 + 97 = c := by omega
  rw [countsInit, countsLoop_eq, if_pos hj, hc, specCounts]
  simp

lemma cntRel_greens (g : List Nat) : ∀ (s : List Nat) (cntI cntS : Nat → Int),
    (∀ c ∈ g, 97 ≤ c ∧ c < 123) → CntRel cntI cntS →
    CntRel (greensLoop g s cntI) (specGreensCounts g s cntS) := by
  induction g with
  | nil =>
    intro s cntI cntS _ h
    cases s with
    | nil => exact h
    | cons b ss => exact h
  | cons a gs ih =>
    intro s cntI cntS hg h
    cases s with
    | nil => exact h
    | cons b ss =>
      have ha := hg a (by simp)
      have hgs : ∀ c ∈ gs, 97 ≤ c ∧ c < 123 := fun c hc => hg c (by simp [hc])
      rw [greensLoop, specGreensCounts]
      by_cases hab : a = b
      · rw [if_pos hab, if_pos hab, if_pos ha]
        exact ih ss _ _ hgs (cntRel_bump h a ha.1 ha.2 (-1))
      · rw [if_neg hab, if_neg hab]
        exact ih ss _ _ hgs h

lemma yellow_eq_specPresent (g : List Nat) : ∀ (res : List Nat) (cntI cntS : Nat → Int),
    (∀ c ∈ g, 97 ≤ c ∧ c < 123) → (∀ r ∈ res, r = 0 ∨ r = 2) → CntRel cntI cntS →
    yellowLoop g res cntI = specPresentPass g res cntS := by
  induction g with
  | nil =>
    intro res cntI cntS _ _ _
    cases res <;> rfl
  | cons a gs ih =>
    intro res cntI cntS hg hres h
    cases res with
    | nil => rfl
    | cons r rs =>
      have ha := hg a (by simp)
      have hgs : ∀ c ∈ gs, 97 ≤ c ∧ c < 123 := fun c hc => hg c (by simp [hc])
      have hrs : ∀ x ∈ rs, x = 0 ∨ x = 2 := fun x hx => hres x (by simp [hx])
      have hcnt : cntI (a - 97) = cntS a := h a ha.1 ha.2
      rw [yellowLoop, specPresentPass]
      by_cases h0 : r = 0
      · have hr2 : ¬ r = 2 := by omega
        rw [if_pos h0, if_neg hr2]
        by_cases hp : 0 < cntS a
        · have hpI : 97 ≤ a ∧ a < 123 ∧ 0 < cntI (a - 97) := ⟨ha.1, ha.2, by omega⟩
          rw [if_pos hpI, if_pos hp,
            ih rs _ _ hgs hrs (cntRel_bump h a ha.1 ha.2 (-1))]
        · have hpI : ¬ (97 ≤ a ∧ a < 123 ∧ 0 < cntI (a - 97)) :=
            fun hh => hp (hcnt ▸ hh.2.2)
          rw [if_neg hpI, if_neg hp, ih rs _ _ hgs hrs h]
      · have hr2 : r = 2 := by
          rcases hres r (by simp) with h' | h'
          · exact absurd h' h0
          · exact h'
        rw [if_neg h0, if_pos hr2, hr2, ih rs _ _ hgs hrs h]

/-- C1: on every pair of equal-length lowercase words of length at most 10
the classifier agrees with the reference two-pass definition, and in
particular both classify aabb against abab as 2, 1, 1, 2. -/
theorem C1_matches_reference :
    (∀ guess secret : List Nat, guess.length = secret.length → guess.length ≤ 10 →
      (∀ c ∈ guess, 97 ≤ c ∧ c < 123) → (∀ c ∈ secret, 97 ≤ c ∧ c < 123) →
      feedback_trits_core guess secret = classify_spec guess secret) ∧
    feedback_trits_core [97, 97, 98, 98] [97, 98, 97, 98] = [2, 1, 1, 2] ∧
    classify_spec [97, 97, 98, 98] [97, 98, 97, 98] = [2, 1, 1, 2] := by
  refine ⟨?_, by decide, by decide⟩
  intro guess secret hlen hlen10 hg hs
  rw [feedback_trits_core, classify_spec]
  exact yellow_eq_specPresent guess (greensMarks guess secret) _ _ hg
    (fun r hr => greensMarks_mem guess secret r hr)
    (cntRel_greens guess secret _ _ hg (cntRel_init secret))

theorem C1_witness :
    feedback_trits_core [97, 97, 98, 98] [97, 98, 97, 98] =
      classify_spec [97, 97, 98, 98] [97, 98, 97, 98] :=
  C1_matches_reference.1 [97, 97, 98, 98] [97, 98, 97, 98] (by decide) (by decide)
    (by decide) (by decide)

end Ibx
